import Mathlib

/-!
Verification development for the orphan-file finder
(`orphan-file-finder/scripts/find_orphans.py`).

The script builds a dependency graph over source files and reports files with
zero inbound imports, split into `orphans` and `likely_entry_points`.

Shallow embedding conventions used below:

* An absolute filesystem path is a `List String` of its components
  (`/proj/utils/helper.py` is `["proj", "utils", "helper.py"]`); components
  never contain `/`.
* `os.walk` output is modelled as the list of root-relative component paths of
  the regular files it yields, in walk order (`walked`).  `--ignore` glob
  matching (`Path.match`) is abstracted as a boolean predicate `ign` on the
  relative path; a run without `--ignore` is `fun _ => false` since
  `is_ignored` is `False` for empty pattern lists.
* `scan_imports` (file reading plus per-dialect regex extraction) is modelled
  by a function `impF : FPath → List String` from an indexed file to its
  extracted raw reference strings; the Python-dialect extractor
  (`REGEX_PY_IMPORT` applied per line, results collected into a `set`) is
  modelled concretely by `scan_imports_py`.  A Python `set` of strings is
  modelled as a first-occurrence-deduplicated list; the aggregation below is
  insensitive to iteration order of that set.
* `EXTENSIONS` is a Python `set` literal; its iteration order is
  hash-randomized per process.  Membership tests against it are
  order-independent, but the extension loops of `resolve_import` observe the
  order, so resolution and the whole pipeline take the iteration order as an
  explicit parameter `exts` (in the program, some permutation of the set's
  members).
* `resolve_import` can raise: only the `.resolve()` call is inside a
  `try/except ValueError`, while `target.with_suffix(ext)` raises an uncaught
  `ValueError` when the target has an empty name (the relative target is the
  filesystem root).  That exception propagates through `main`'s unguarded
  loops and aborts the process with no JSON output; `Except.error` models
  this abnormal termination, `Except.ok` a completed run.
-/

namespace FindOrphans

/-- Absolute path as its list of components. -/
abbrev FPath := List String

/-! ### Character and string utilities -/

/-- ASCII lowering table, modelling `str.lower` / `re.IGNORECASE` for the
ASCII names that occur in the analysis. -/
def lowPairs : List (Char × Char) :=
  [('A', 'a'), ('B', 'b'), ('C', 'c'), ('D', 'd'), ('E', 'e'), ('F', 'f'),
   ('G', 'g'), ('H', 'h'), ('I', 'i'), ('J', 'j'), ('K', 'k'), ('L', 'l'),
   ('M', 'm'), ('N', 'n'), ('O', 'o'), ('P', 'p'), ('Q', 'q'), ('R', 'r'),
   ('S', 's'), ('T', 't'), ('U', 'u'), ('V', 'v'), ('W', 'w'), ('X', 'x'),
   ('Y', 'y'), ('Z', 'z')]

/-- Lower-case a character (ASCII model of Python lowering). -/
def lowCh (c : Char) : Char :=
  match lowPairs.find? (fun p => decide (p.1 = c)) with
  | some p => p.2
  | none => c

/-- Lower-case a string (model of `str.lower()` on ASCII data). -/
def lowerStr (s : String) : String := String.mk (s.data.map lowCh)

/-- Lexicographic (code-point) order on character lists, as used by Python
`sorted` on strings. -/
def lexLe : List Char → List Char → Bool
  | [], _ => true
  | _ :: _, [] => false
  | a :: as, b :: bs =>
    if a.toNat < b.toNat then true
    else if a.toNat = b.toNat then lexLe as bs
    else false

/-- Python string `<=` as a proposition. -/
def strLe (a b : String) : Prop := lexLe a.data b.data = true

instance : DecidableRel strLe := fun _ _ => inferInstanceAs (Decidable (_ = true))

/-- Split a character list on `/`. -/
def splitAcc : List Char → List Char → List String
  | acc, [] => [String.mk acc.reverse]
  | acc, c :: cs =>
    if c = '/' then String.mk acc.reverse :: splitAcc [] cs
    else splitAcc (c :: acc) cs

/-- Split a character list on `/` into components (may contain empties). -/
def splitOnSlash (cs : List Char) : List String := splitAcc [] cs

/-- First-occurrence deduplication, modelling Python `dict`/`set` key
semantics (insertion order is kept, later duplicates are dropped). -/
def dedupF {α : Type} [DecidableEq α] : List α → List α
  | [] => []
  | x :: xs => x :: (dedupF xs).filter (fun y => decide (y ≠ x))

/-! ### `pathlib` name/suffix/stem model

CPython `PurePath.suffix` of a name is `name[i:]` for the last `.` at index
`i` with `0 < i < len(name) - 1`, else the empty string. -/

/-- Index (from the end, 0-based) of the first `.` in a reversed name. -/
def revFindDot : List Char → Option Nat
  | [] => none
  | c :: cs => if c = '.' then some 0 else (revFindDot cs).map (· + 1)

/-- `PurePath.suffix` of a file name given as characters. -/
def nmSuffix (cs : List Char) : List Char :=
  match revFindDot cs.reverse with
  | none => []
  | some j =>
    if j = 0 ∨ j + 1 = cs.length then []
    else (cs.reverse.take (j + 1)).reverse

/-- `PurePath.stem`: the name with its suffix removed. -/
def nmStem (cs : List Char) : List Char := cs.take (cs.length - (nmSuffix cs).length)

/-- Final component of a path (`PurePath.name` of an indexed file). -/
def nameOf (p : FPath) : String := p.getLastD ""

/-- `PurePath.stem` of a path's final component. -/
def stemOf (p : FPath) : String := String.mk (nmStem (nameOf p).data)

/-- `path.suffix.lower()`. -/
def suffLower (nm : String) : String := String.mk ((nmSuffix nm.data).map lowCh)

/-- Characters of `str(path)` for an absolute path: `/` before every
component. -/
def pathChars (p : FPath) : List Char :=
  p.foldl (fun acc comp => acc ++ '/' :: comp.data) []

/-- `PurePath.with_suffix ext` on a path with a nonempty final component:
drop the current suffix of that component and attach `ext`.  On an empty name
CPython raises `ValueError`; `resolve_import` models that raise explicitly
before any call to this function, so this total function is only applied to
paths with a nonempty final component. -/
def withSuffix (p : FPath) (ext : String) : FPath :=
  p.dropLast ++ [String.mk (nmStem (nameOf p).data ++ ext.data)]

/-! ### Configuration (source lines 20-49) -/

/-- The members of the `EXTENSIONS` set literal (source lines 20-24), used
for the order-independent membership tests.  The iteration order of the set
(observed by the loops of `resolve_import`) is hash-randomized per process
and is passed separately as a parameter `exts`. -/
def EXTENSIONS : List String :=
  [".js", ".jsx", ".ts", ".tsx", ".mjs", ".cjs", ".py", ".go"]

/-- `f"index{ext}"` from `resolve_import` (source line 125). -/
def idxName (ext : String) : String := "index" ++ ext

/-- Does `name` start with `pre`?  (`re.search` of an `^`-anchored pattern.) -/
def strStarts (s pre : String) : Bool := pre.data.isPrefixOf s.data

/-- `get_entry_points`'s per-name test: `re.search(pattern, name,
re.IGNORECASE)` over `ENTRY_POINT_PATTERNS` (source lines 34-49, 71-80).
Each pattern is `^`/`$`-anchored except the three `config` prefixes, so the
regex list denotes exactly this name predicate on ASCII names. -/
def isEntryPointName (nm : String) : Bool :=
  let n := lowerStr nm
  decide (n ∈ ["index.js", "index.ts", "index.jsx", "index.tsx",
               "main.js", "main.ts", "main.py", "main.go",
               "server.js", "server.ts", "app.js", "app.ts",
               "cli.js", "cli.ts", "cli.py", "setup.py", "manage.py",
               "tsconfig.json", "package.json", "go.mod", "requirements.txt"])
  || strStarts n "vite.config." || strStarts n "webpack.config."
  || strStarts n "jest.config."

/-- The four package-manifest whitelist patterns (`^tsconfig\.json$`,
`^package\.json$`, `^go\.mod$`, `^requirements\.txt$`), as a name
predicate. -/
def manifestMatch (nm : String) : Bool :=
  decide (lowerStr nm ∈ ["tsconfig.json", "package.json", "go.mod", "requirements.txt"])

/-- File admission test of the indexer: `path.suffix.lower() in EXTENSIONS`
(source line 178; set membership, independent of iteration order). -/
def extOK (p : FPath) : Bool := decide (suffLower (nameOf p) ∈ EXTENSIONS)

/-! ### `resolve_import` (source lines 82-129) -/

/-- `import_path.replace('.', '/')` (source line 96). -/
def dotToSlash (c : Char) : Char := if c = '.' then '/' else c

/-- Characters of the converted module path `py_path`. -/
def modPathChars (imp : String) : List Char := imp.data.map dotToSlash

/-- `PurePath(s).name`: last component after dropping empty and `.`
components. -/
def lastNonEmpty (l : List String) : String :=
  (l.filter (fun s => decide (s ≠ "" ∧ s ≠ "."))).getLastD ""

/-- `str(c).endswith(py_path + '.py')` (source line 102). -/
def endsPy (imp : String) (c : FPath) : Bool :=
  (modPathChars imp ++ ".py".data).isSuffixOf (pathChars c)

/-- `import_path.startswith('.')` (source line 92). -/
def startsWithDot (s : String) : Bool :=
  match s.data with
  | c :: _ => decide (c = '.')
  | [] => false

/-- The combined `file_map` lookup (source lines 186-187): every file was
appended under both its `name` and its `stem`, in walk order. -/
def fileMapGet (files : List FPath) (key : String) : List FPath :=
  (files.map (fun f =>
    (if nameOf f = key then [f] else []) ++ (if stemOf f = key then [f] else []))).flatten

/-- Components of `PurePath(import_path)`: split on `/`, drop empty and `.`
parts, keep `..`. -/
def relComps (imp : String) : List String :=
  (splitOnSlash imp.data).filter (fun s => decide (s ≠ "" ∧ s ≠ "."))

/-- Lexical `Path.resolve()` normalisation: fold components, `..` pops one
(staying at the root when already there).  Symlinks do not exist in the
model. -/
def normalizePath (l : List String) : FPath :=
  l.foldl (fun acc c => if c = ".." then acc.dropLast else acc ++ [c]) []

/-- `(base_file.parent / import_path).resolve()` (source line 109). -/
def resolveRel (base : FPath) (imp : String) : FPath :=
  normalizePath (base.dropLast ++ relComps imp)

/-- `resolve_import(base_file, import_path, all_files_map)` (source lines
82-129).  `exts` is this process's iteration order of the `EXTENSIONS` set;
`files` is the index in walk order, providing both the `file_map` candidate
lists and the `__FULL_PATHS__` membership set.  Only `.resolve()` sits in a
`try`; when the relative target has an empty name (it is the filesystem
root), the first iteration of the extension loop raises `ValueError` from
`with_suffix` (line 119), uncaught — `Except.error` (when `exts` is empty
the loop body never runs, and neither does the `index.<ext>` loop's
membership hit). -/
def resolve_import (exts : List String) (files : List FPath) (base : FPath)
    (imp : String) : Except String (Option FPath) :=
  if startsWithDot imp then
    let target := resolveRel base imp
    if decide (target ∈ files) then Except.ok (some target)
    else if nameOf target = "" then
      if exts = [] then Except.ok none else Except.error "ValueError"
    else
      match exts.find? (fun e => decide (withSuffix target e ∈ files)) with
      | some e => Except.ok (some (withSuffix target e))
      | none =>
        match exts.find? (fun e => decide (target ++ [idxName e] ∈ files)) with
        | some e => Except.ok (some (target ++ [idxName e]))
        | none => Except.ok none
  else
    Except.ok ((fileMapGet files (lastNonEmpty (splitOnSlash (modPathChars imp)))).find?
      (fun c => endsPy imp c))

/-! ### Python-dialect reference extraction (source lines 53, 144-149)

`REGEX_PY_IMPORT = ^\s*(?:import\s+([\w\.]+)|from\s+([\w\.]+)\s+import)`
applied with `re.match` to each line.  `[\w\.]+` and `\s+` are disjoint
character classes, so the regex is equivalent to maximal-munch scanning. -/

/-- Python `\s` (ASCII part). -/
def isSpaceCh (c : Char) : Bool :=
  decide (c = ' ' ∨ c = '\t' ∨ c = '\n' ∨ c = '\r' ∨ c = '\x0b' ∨ c = '\x0c')

/-- Python `[\w\.]` (ASCII part). -/
def isWordDotCh (c : Char) : Bool := c.isAlphanum || c = '_' || c = '.'

/-- Match a literal and return the rest. -/
def litAfter (lit cs : List Char) : Option (List Char) :=
  if lit.isPrefixOf cs then some (cs.drop lit.length) else none

/-- Alternative 1: `import\s+([\w\.]+)`. -/
def pyMatchImport (cs : List Char) : Option String :=
  match litAfter "import".data cs with
  | none => none
  | some rest =>
    if rest.takeWhile isSpaceCh = [] then none
    else
      let w := (rest.dropWhile isSpaceCh).takeWhile isWordDotCh
      if w = [] then none else some (String.mk w)

/-- Alternative 2: `from\s+([\w\.]+)\s+import`. -/
def pyMatchFrom (cs : List Char) : Option String :=
  match litAfter "from".data cs with
  | none => none
  | some rest =>
    if rest.takeWhile isSpaceCh = [] then none
    else
      let rest2 := rest.dropWhile isSpaceCh
      let w := rest2.takeWhile isWordDotCh
      if w = [] then none
      else
        let rest3 := rest2.drop w.length
        if rest3.takeWhile isSpaceCh = [] then none
        else if ("import".data).isPrefixOf (rest3.dropWhile isSpaceCh) then
          some (String.mk w)
        else none

/-- `REGEX_PY_IMPORT.match(line)`, returning `group(1) or group(2)`. -/
def pyLineImport (line : String) : Option String :=
  let cs := line.data.dropWhile isSpaceCh
  match pyMatchImport cs with
  | some m => some m
  | none => pyMatchFrom cs

/-- `scan_imports` for a `.py` file whose content has the given lines
(source lines 144-149); the Python `set` is a deduplicated list. -/
def scan_imports_py (lines : List String) : List String :=
  dedupF (lines.filterMap pyLineImport)

/-! ### Graph building and classification (source lines 161-252) -/

/-- `in_degree` is a Python `dict`, modelled as an association list in
insertion order. -/
abbrev Dict := List (FPath × Nat)

/-- `resolved in in_degree` (source line 227). -/
def hasKey (d : Dict) (k : FPath) : Bool := d.any (fun p => decide (p.1 = k))

/-- `in_degree[resolved] += 1` (source line 229): in-place value update,
insertion order untouched. -/
def bump (d : Dict) (k : FPath) : Dict :=
  d.map (fun p => if p.1 = k then (p.1, p.2 + 1) else p)

/-- `in_degree.get(k)` with default 0 (every key of interest is present). -/
def dictGet (d : Dict) (k : FPath) : Nat :=
  match d.find? (fun p => decide (p.1 = k)) with
  | some p => p.2
  | none => 0

/-- Short-circuiting fold: a plain Python `for` loop whose body may raise.
The raise aborts the whole iteration. -/
def foldE {α β : Type} (f : β → α → Except String β) : List α → β → Except String β
  | [], b => Except.ok b
  | a :: l, b =>
    match f b a with
    | Except.error e => Except.error e
    | Except.ok b2 => foldE f l b2

/-- Body of the aggregation loop (source lines 225-229): resolve one raw
reference of `consumer` and count it unless it is unresolved, external, or a
self-import; an exception from `resolve_import` propagates. -/
def addImport (exts : List String) (files : List FPath) (consumer : FPath)
    (d : Dict) (imp : String) : Except String Dict :=
  match resolve_import exts files consumer imp with
  | Except.error e => Except.error e
  | Except.ok none => Except.ok d
  | Except.ok (some r) =>
    Except.ok (if hasKey d r then (if r = consumer then d else bump d r) else d)

/-- The whole aggregation (source lines 220-229): `in_degree = {f: 0 for f in
all_files}` then one pass over every consumer's extracted references.  (The
discarded graph-building pass of lines 199-211 resolves the same references
in the same order and would raise at the same reference, so one modelled
pass is faithful, also for the error case.) -/
def accumulate (exts : List String) (files : List FPath)
    (impF : FPath → List String) : Except String Dict :=
  foldE (fun d consumer => foldE (fun d imp => addImport exts files consumer d imp)
      (impF consumer) d)
    files ((dedupF files).map (fun f => (f, 0)))

/-- The index (source lines 172-188): keep walked files whose lowered suffix
is recognised and whose relative path is not ignored; record absolute
paths. -/
def indexedAbs (root : FPath) (walked : List (List String))
    (ign : List String → Bool) : List FPath :=
  (walked.filter (fun rel => extOK (root ++ rel) && !(ign rel))).map
    (fun rel => root ++ rel)

/-- The `in_degree` table of a run, or the exception that aborted it. -/
def degreeDict (exts : List String) (root : FPath) (walked : List (List String))
    (ign : List String → Bool) (impF : FPath → List String) : Except String Dict :=
  accumulate exts (indexedAbs root walked ign) impF

/-- `get_entry_points(all_files)` (source lines 71-80), as the sublist of
files whose final component matches a whitelist pattern (the Python `set` is
used only for membership). -/
def get_entry_points (files : List FPath) : List FPath :=
  files.filter (fun f => isEntryPointName (nameOf f))

/-- `orphans` (source lines 232-237): files of in-degree 0, in `dict`
insertion order. -/
def orphansOf (d : Dict) : List FPath :=
  (d.filter (fun p => decide (p.2 = 0))).map (fun p => p.1)

/-- `true_orphans` (source line 240). -/
def trueOrphansOf (root : FPath) (walked : List (List String))
    (ign : List String → Bool) (d : Dict) : List FPath :=
  (orphansOf d).filter (fun f => decide (f ∉ get_entry_points (indexedAbs root walked ign)))

/-- `likely_entry_points` (source line 241). -/
def likelyOf (root : FPath) (walked : List (List String))
    (ign : List String → Bool) (d : Dict) : List FPath :=
  (orphansOf d).filter (fun f => decide (f ∈ get_entry_points (indexedAbs root walked ign)))

/-- `str(Path(f).relative_to(root))` for an indexed file. -/
def relPathStr (root : FPath) (f : FPath) : String :=
  String.intercalate "/" (f.drop root.length)

/-- The JSON output structure (source lines 247-252). -/
structure Output where
  orphans : List String
  likely_entry_points : List String
  count : Nat
deriving DecidableEq

deriving instance DecidableEq for Except

/-- Classification and rendering of a completed run (source lines 231-252,
JSON format). -/
def assembleOutput (root : FPath) (walked : List (List String))
    (ign : List String → Bool) (d : Dict) : Output :=
  { orphans := (trueOrphansOf root walked ign d).map (relPathStr root)
    likely_entry_points := (likelyOf root walked ign d).map (relPathStr root)
    count := (trueOrphansOf root walked ign d).length }

/-- A full run of the analysis (source lines 161-252, JSON format): index,
aggregate, classify, render relative paths.  An exception during aggregation
aborts the run before any output is assembled. -/
def runPipeline (exts : List String) (root : FPath) (walked : List (List String))
    (ign : List String → Bool) (impF : FPath → List String) : Except String Output :=
  match degreeDict exts root walked ign impF with
  | Except.error e => Except.error e
  | Except.ok d => Except.ok (assembleOutput root walked ign d)

/-- Text-format rendering sorts each list (`sorted(...)`, source lines 259
and 266); JSON rendering does not. -/
def textSorted (l : List String) : List String := List.insertionSort strLe l

/-- `os.walk(root)` over a filesystem snapshot given as a list of absolute
file paths: yields exactly the files strictly below `root`, in snapshot
order.  When `root` does not exist or is not a directory, `os.walk` (with its
default `onerror=None`) yields nothing. -/
def walkFS (fs : List FPath) (root : FPath) : List (List String) :=
  fs.filterMap (fun f =>
    if root.isPrefixOf f && !(decide (f = root)) then some (f.drop root.length) else none)

/-- `main()` on a filesystem snapshot (no `--ignore` patterns), `exts` being
this process's iteration order of the `EXTENSIONS` set.  There is no
precondition check on `root` (source lines 161-197); `Except.error` is the
uncaught `ValueError` aborting the process with nonzero status and no JSON
output. -/
def mainRun (exts : List String) (fs : List FPath) (root : FPath)
    (impF : FPath → List String) : Except String Output :=
  runPipeline exts root (walkFS fs root) (fun _ => false) impF

/-- The claim's reading of resolution step (2): the extension *appended* to
the target path (compare `withSuffix`, which models CPython `with_suffix`
and first strips an existing suffix).  Modelled from the spec sentence
"path + each recognized extension exists in index". -/
def specAppendExt (p : FPath) (ext : String) : FPath :=
  p.dropLast ++ [String.mk ((nameOf p).data ++ ext.data)]

/-! ### Lemmas about the model -/

theorem mem_dedupF {α : Type} [DecidableEq α] (l : List α) (a : α) :
    a ∈ dedupF l ↔ a ∈ l := by
  induction l with
  | nil => simp [dedupF]
  | cons x xs ih =>
    by_cases hax : a = x
    · subst hax; simp [dedupF]
    · simp [dedupF, List.mem_filter, hax, ih]

theorem nodup_dedupF {α : Type} [DecidableEq α] (l : List α) : (dedupF l).Nodup := by
  induction l with
  | nil => simp [dedupF]
  | cons x xs ih =>
    simp only [dedupF, List.nodup_cons]
    refine ⟨?_, ih.filter _⟩
    intro hx
    have hne := (List.mem_filter.mp hx).2
    simp at hne

theorem bump_keys (d : Dict) (k : FPath) :
    (bump d k).map (fun p => p.1) = d.map (fun p => p.1) := by
  simp only [bump, List.map_map]
  congr 1
  funext p
  simp only [Function.comp_apply]
  split <;> rfl

theorem dictGet_cons (x : FPath × Nat) (l : Dict) (t : FPath) :
    dictGet (x :: l) t = if x.1 = t then x.2 else dictGet l t := by
  unfold dictGet
  by_cases h : x.1 = t
  · rw [List.find?_cons_of_pos _ (by simp [h]), if_pos h]
  · rw [List.find?_cons_of_neg _ (by simp [h]), if_neg h]

theorem hasKey_cons (x : FPath × Nat) (l : Dict) (t : FPath) :
    hasKey (x :: l) t = (decide (x.1 = t) || hasKey l t) := by
  simp [hasKey, List.any_cons]

theorem hasKey_iff (d : Dict) (t : FPath) :
    hasKey d t = true ↔ t ∈ d.map (fun p => p.1) := by
  simp [hasKey, List.any_eq_true, List.mem_map]

theorem hasKey_congr (d2 d : Dict) (t : FPath)
    (h : d2.map (fun p => p.1) = d.map (fun p => p.1)) :
    hasKey d2 t = hasKey d t := by
  cases hb : hasKey d t with
  | true => exact (hasKey_iff d2 t).mpr (by rw [h]; exact (hasKey_iff d t).mp hb)
  | false =>
    cases hb2 : hasKey d2 t with
    | false => rfl
    | true =>
      have hmem := (hasKey_iff d2 t).mp hb2
      rw [h] at hmem
      rw [(hasKey_iff d t).mpr hmem] at hb
      exact hb

theorem dictGet_bump (d : Dict) (k t : FPath) :
    dictGet (bump d k) t =
      if t = k ∧ hasKey d t = true then dictGet d t + 1 else dictGet d t := by
  induction d with
  | nil => simp [bump, dictGet, hasKey]
  | cons q rest ih =>
    show dictGet ((if q.1 = k then (q.1, q.2 + 1) else q) :: bump rest k) t = _
    by_cases hqk : q.1 = k
    · rw [if_pos hqk, dictGet_cons, dictGet_cons]
      by_cases hqt : q.1 = t
      · rw [if_pos hqt, if_pos hqt]
        have htk : t = k := by rw [← hqt, hqk]
        have hk : hasKey (q :: rest) t = true := by simp [hasKey_cons, hqt]
        rw [if_pos ⟨htk, hk⟩]
      · rw [if_neg hqt, if_neg hqt, ih]
        have hhk : hasKey (q :: rest) t = hasKey rest t := by simp [hasKey_cons, hqt]
        rw [hhk]
    · rw [if_neg hqk, dictGet_cons, dictGet_cons]
      by_cases hqt : q.1 = t
      · rw [if_pos hqt, if_pos hqt]
        have hnot : ¬ (t = k ∧ hasKey (q :: rest) t = true) := by
          rintro ⟨htk, _⟩
          exact hqk (by rw [hqt, htk])
        rw [if_neg hnot]
      · rw [if_neg hqt, if_neg hqt, ih]
        have hhk : hasKey (q :: rest) t = hasKey rest t := by simp [hasKey_cons, hqt]
        rw [hhk]

theorem dictGet_of_mem (d : Dict) (hnd : (d.map (fun p => p.1)).Nodup)
    (p : FPath × Nat) (hp : p ∈ d) : dictGet d p.1 = p.2 := by
  induction d with
  | nil => cases hp
  | cons q t ih =>
    simp only [List.map_cons, List.nodup_cons] at hnd
    rcases List.mem_cons.mp hp with hpq | hpt
    · subst hpq
      unfold dictGet
      rw [List.find?_cons_of_pos _ (by simp)]
    · have hne : q.1 ≠ p.1 := by
        intro he
        exact hnd.1 (he ▸ List.mem_map.mpr ⟨p, hpt, rfl⟩)
      unfold dictGet
      rw [List.find?_cons_of_neg _ (by simp [hne])]
      exact ih hnd.2 hpt

theorem dictGet_init (files : List FPath) (t : FPath) :
    dictGet ((dedupF files).map (fun f => (f, (0 : Nat)))) t = 0 := by
  unfold dictGet
  cases hf : ((dedupF files).map (fun f => (f, (0 : Nat)))).find?
      (fun p => decide (p.1 = t)) with
  | none => rfl
  | some p =>
    have hp := List.mem_of_find?_eq_some hf
    rcases List.mem_map.mp hp with ⟨g, _, hg⟩
    rw [← hg]

theorem hasKey_init (files : List FPath) (t : FPath) (ht : t ∈ files) :
    hasKey ((dedupF files).map (fun f => (f, (0 : Nat)))) t = true := by
  rw [hasKey_iff, List.map_map,
    show ((fun (p : FPath × Nat) => p.1) ∘ fun f => (f, (0 : Nat))) = id from rfl,
    List.map_id]
  exact (mem_dedupF files t).mpr ht

theorem addImport_ok_keys (exts : List String) (files : List FPath) (c : FPath)
    (d : Dict) (imp : String) (d2 : Dict)
    (h : addImport exts files c d imp = Except.ok d2) :
    d2.map (fun p => p.1) = d.map (fun p => p.1) := by
  unfold addImport at h
  cases hr : resolve_import exts files c imp with
  | error e => rw [hr] at h; exact Except.noConfusion h
  | ok o =>
    rw [hr] at h
    cases o with
    | none => rw [← Except.ok.inj h]
    | some r =>
      rw [← Except.ok.inj h]
      by_cases h1 : hasKey d r = true
      · by_cases h2 : r = c <;> simp [h1, h2, bump_keys]
      · simp [h1]

theorem addImport_ok_val (exts : List String) (files : List FPath) (c : FPath)
    (d : Dict) (imp : String) (d2 : Dict) (t : FPath)
    (h : addImport exts files c d imp = Except.ok d2) (hkt : hasKey d t = true) :
    dictGet d2 t = dictGet d t +
      (if resolve_import exts files c imp = Except.ok (some t) ∧ t ≠ c then 1 else 0) := by
  unfold addImport at h
  cases hr : resolve_import exts files c imp with
  | error e => rw [hr] at h; exact Except.noConfusion h
  | ok o =>
    rw [hr] at h
    cases o with
    | none =>
      rw [← Except.ok.inj h,
        if_neg (by rintro ⟨he, _⟩; exact Option.noConfusion (Except.ok.inj he))]
      simp
    | some r =>
      have hd2 := Except.ok.inj h
      by_cases hrt : r = t
      · rw [hrt] at hd2
        rw [← hd2, if_pos hkt]
        by_cases htc : t = c
        · rw [if_pos htc, if_neg (by rintro ⟨_, hne⟩; exact hne htc)]
          simp
        · rw [if_neg htc, dictGet_bump, if_pos ⟨rfl, hkt⟩, hrt,
            if_pos ⟨rfl, htc⟩]
      · rw [← hd2]
        have hcond : ¬ ((Except.ok (some r) : Except String (Option FPath))
            = Except.ok (some t) ∧ t ≠ c) := by
          rintro ⟨he, _⟩
          exact hrt (Option.some.inj (Except.ok.inj he))
        rw [if_neg hcond]
        simp only [Nat.add_zero]
        by_cases h1 : hasKey d r = true
        · rw [if_pos h1]
          by_cases h2 : r = c
          · rw [if_pos h2]
          · rw [if_neg h2, dictGet_bump,
              if_neg (by rintro ⟨htr, _⟩; exact hrt htr.symm)]
        · rw [if_neg h1]

theorem addImport_self (exts : List String) (files : List FPath) (c : FPath)
    (d : Dict) (ref : String)
    (h : resolve_import exts files c ref = Except.ok (some c)) :
    addImport exts files c d ref = Except.ok d := by
  simp [addImport, h]

theorem foldE_keys_preserved (g : Dict → String → Except String Dict)
    (hg : ∀ d x d2, g d x = Except.ok d2 →
      d2.map (fun p => p.1) = d.map (fun p => p.1)) :
    ∀ (l : List String) (d d2 : Dict), foldE g l d = Except.ok d2 →
      d2.map (fun p => p.1) = d.map (fun p => p.1) := by
  intro l
  induction l with
  | nil =>
    intro d d2 h
    rw [← Except.ok.inj (h : Except.ok d = Except.ok d2)]
  | cons a l ih =>
    intro d d2 h
    unfold foldE at h
    cases hx : g d a with
    | error e => rw [hx] at h; exact Except.noConfusion h
    | ok dm =>
      rw [hx] at h
      rw [ih dm d2 h, hg d a dm hx]

theorem foldE_outer_keys (g : Dict → FPath → Except String Dict)
    (hg : ∀ d x d2, g d x = Except.ok d2 →
      d2.map (fun p => p.1) = d.map (fun p => p.1)) :
    ∀ (l : List FPath) (d d2 : Dict), foldE g l d = Except.ok d2 →
      d2.map (fun p => p.1) = d.map (fun p => p.1) := by
  intro l
  induction l with
  | nil =>
    intro d d2 h
    rw [← Except.ok.inj (h : Except.ok d = Except.ok d2)]
  | cons a l ih =>
    intro d d2 h
    unfold foldE at h
    cases hx : g d a with
    | error e => rw [hx] at h; exact Except.noConfusion h
    | ok dm =>
      rw [hx] at h
      rw [ih dm d2 h, hg d a dm hx]

theorem degreeDict_keys (exts : List String) (root : FPath)
    (walked : List (List String)) (ign : List String → Bool)
    (impF : FPath → List String) (d : Dict)
    (hd : degreeDict exts root walked ign impF = Except.ok d) :
    d.map (fun p => p.1) = dedupF (indexedAbs root walked ign) := by
  unfold degreeDict accumulate at hd
  have h1 := foldE_outer_keys _
    (fun d0 c d2 h => foldE_keys_preserved _
      (fun d1 i d3 hh => addImport_ok_keys exts (indexedAbs root walked ign) c d1 i d3 hh)
      (impF c) d0 d2 h)
    (indexedAbs root walked ign) _ d hd
  rw [h1, List.map_map,
    show ((fun (p : FPath × Nat) => p.1) ∘ fun f => (f, (0 : Nat))) = id from rfl,
    List.map_id]

theorem foldE_congr {α : Type} (g1 g2 : Dict → α → Except String Dict) :
    ∀ (l : List α), (∀ b a, a ∈ l → g1 b a = g2 b a) →
      ∀ b, foldE g1 l b = foldE g2 l b
  | [], _, _ => rfl
  | a :: l, hg, b => by
    simp only [foldE]
    rw [← hg b a (List.mem_cons_self a l)]
    cases hx : g1 b a with
    | error e => rfl
    | ok b2 =>
      exact foldE_congr g1 g2 l (fun b a ha => hg b a (List.mem_cons_of_mem _ ha)) b2

theorem foldE_imports_val (exts : List String) (files : List FPath) (c t : FPath) :
    ∀ (imps : List String) (d d2 : Dict), hasKey d t = true →
      foldE (fun d imp => addImport exts files c d imp) imps d = Except.ok d2 →
      dictGet d2 t = dictGet d t +
        (if t = c then 0
         else imps.countP (fun imp =>
           decide (resolve_import exts files c imp = Except.ok (some t)))) := by
  intro imps
  induction imps with
  | nil =>
    intro d d2 _ h
    rw [← Except.ok.inj (h : Except.ok d = Except.ok d2)]
    simp
  | cons imp imps ih =>
    intro d d2 hk h
    unfold foldE at h
    cases ha : addImport exts files c d imp with
    | error e => rw [ha] at h; exact Except.noConfusion h
    | ok dm =>
      rw [ha] at h
      have hkm : hasKey dm t = true := by
        rw [hasKey_congr dm d t (addImport_ok_keys exts files c d imp dm ha)]
        exact hk
      have hv := addImport_ok_val exts files c d imp dm t ha hk
      have hrest := ih dm d2 hkm h
      rw [hrest, hv, List.countP_cons]
      by_cases htc : t = c
      · simp [htc]
      · rw [if_neg htc, if_neg htc]
        by_cases hres : resolve_import exts files c imp = Except.ok (some t)
        · rw [if_pos ⟨hres, htc⟩, if_pos (by simp [hres])]
          omega
        · rw [if_neg (fun hh => hres hh.1), if_neg (by simp [hres])]
          omega

theorem foldE_files_val (exts : List String) (files : List FPath)
    (impF : FPath → List String) (t : FPath) :
    ∀ (fs : List FPath) (d d2 : Dict), hasKey d t = true →
      foldE (fun d consumer => foldE (fun d imp => addImport exts files consumer d imp)
        (impF consumer) d) fs d = Except.ok d2 →
      dictGet d2 t = dictGet d t +
        (fs.map (fun c =>
          if t = c then 0
          else (impF c).countP (fun imp =>
            decide (resolve_import exts files c imp = Except.ok (some t))))).sum := by
  intro fs
  induction fs with
  | nil =>
    intro d d2 _ h
    rw [← Except.ok.inj (h : Except.ok d = Except.ok d2)]
    simp
  | cons c fs ih =>
    intro d d2 hk h
    unfold foldE at h
    cases hi : foldE (fun d imp => addImport exts files c d imp) (impF c) d with
    | error e => rw [hi] at h; exact Except.noConfusion h
    | ok dm =>
      rw [hi] at h
      have hkeys : dm.map (fun p => p.1) = d.map (fun p => p.1) :=
        foldE_keys_preserved _
          (fun d1 i d3 hh => addImport_ok_keys exts files c d1 i d3 hh) (impF c) d dm hi
      have hkm : hasKey dm t = true := by
        rw [hasKey_congr dm d t hkeys]; exact hk
      have h1 := foldE_imports_val exts files c t (impF c) d dm hk hi
      have h2 := ih dm d2 hkm h
      rw [h2, h1, List.map_cons, List.sum_cons]
      omega

theorem mem_orphansOf (files : List FPath) (d : Dict)
    (hkeys : d.map (fun p => p.1) = dedupF files) (f : FPath) :
    f ∈ orphansOf d ↔ f ∈ files ∧ dictGet d f = 0 := by
  have hnd : (d.map (fun p => p.1)).Nodup := by
    rw [hkeys]; exact nodup_dedupF _
  unfold orphansOf
  constructor
  · intro hf
    rcases List.mem_map.mp hf with ⟨p, hpf, hp1⟩
    have hpd := (List.mem_filter.mp hpf).1
    have hp0 : p.2 = 0 := by simpa using (List.mem_filter.mp hpf).2
    subst hp1
    refine ⟨?_, ?_⟩
    · rw [← mem_dedupF, ← hkeys]
      exact List.mem_map.mpr ⟨p, hpd, rfl⟩
    · rw [dictGet_of_mem _ hnd p hpd, hp0]
  · rintro ⟨hidx, hdeg⟩
    have hfk : f ∈ d.map (fun p => p.1) := by
      rw [hkeys, mem_dedupF]; exact hidx
    rcases List.mem_map.mp hfk with ⟨p, hpd, hp1⟩
    have hp0 : p.2 = 0 := by rw [← hdeg, ← hp1, dictGet_of_mem _ hnd p hpd]
    exact List.mem_map.mpr ⟨p, List.mem_filter.mpr ⟨hpd, by simp [hp0]⟩, hp1⟩

theorem mem_get_entry_points (files : List FPath) (f : FPath) :
    f ∈ get_entry_points files ↔ f ∈ files ∧ isEntryPointName (nameOf f) = true := by
  simp [get_entry_points, List.mem_filter]

theorem mem_trueOrphansOf (root : FPath) (walked : List (List String))
    (ign : List String → Bool) (d : Dict) (f : FPath) :
    f ∈ trueOrphansOf root walked ign d ↔
      f ∈ orphansOf d ∧ ¬ f ∈ get_entry_points (indexedAbs root walked ign) := by
  simp [trueOrphansOf, List.mem_filter]

theorem mem_likelyOf (root : FPath) (walked : List (List String))
    (ign : List String → Bool) (d : Dict) (f : FPath) :
    f ∈ likelyOf root walked ign d ↔
      f ∈ orphansOf d ∧ f ∈ get_entry_points (indexedAbs root walked ign) := by
  simp [likelyOf, List.mem_filter]

theorem extOK_of_mem_indexedAbs (root : FPath) (walked : List (List String))
    (ign : List String → Bool) (f : FPath) (h : f ∈ indexedAbs root walked ign) :
    extOK f = true := by
  unfold indexedAbs at h
  rcases List.mem_map.mp h with ⟨rel, hrel, hf⟩
  have hcond := (List.mem_filter.mp hrel).2
  rw [← hf]
  simp only [Bool.and_eq_true] at hcond
  exact hcond.1

theorem lowCh_eq_dot (c : Char) : lowCh c = '.' ↔ c = '.' := by
  constructor
  · intro h
    unfold lowCh at h
    cases hf : lowPairs.find? (fun p => decide (p.1 = c)) with
    | none => rw [hf] at h; exact h
    | some p =>
      rw [hf] at h
      have h2 : p.2 = '.' := h
      exfalso
      have hp := List.mem_of_find?_eq_some hf
      fin_cases hp <;> exact absurd h2 (by decide)
  · intro h; subst h; decide

theorem revFindDot_map (cs : List Char) : revFindDot (cs.map lowCh) = revFindDot cs := by
  induction cs with
  | nil => rfl
  | cons c cs ih =>
    by_cases h : c = '.'
    · subst h
      simp [revFindDot, show lowCh '.' = '.' by decide]
    · have hl : ¬ lowCh c = '.' := fun hc => h ((lowCh_eq_dot c).mp hc)
      simp [revFindDot, h, hl, ih]

theorem nmSuffix_map (cs : List Char) : nmSuffix (cs.map lowCh) = (nmSuffix cs).map lowCh := by
  unfold nmSuffix
  rw [show (cs.map lowCh).reverse = cs.reverse.map lowCh by rw [List.map_reverse],
      revFindDot_map]
  cases hr : revFindDot cs.reverse with
  | none => simp
  | some j =>
    simp only [List.length_map]
    split
    · simp
    · rw [← List.map_take, ← List.map_reverse]

theorem suffLower_eq_of_lower (nm t : String) (h : lowerStr nm = t) :
    suffLower nm = String.mk (nmSuffix t.data) := by
  have hd : nm.data.map lowCh = t.data := congrArg String.data h
  unfold suffLower
  rw [← nmSuffix_map, hd]

theorem suffLower_manifest (nm : String) (h : manifestMatch nm = true) :
    suffLower nm ∉ EXTENSIONS := by
  unfold manifestMatch at h
  have hmem := of_decide_eq_true h
  simp only [List.mem_cons, List.mem_singleton, List.not_mem_nil, or_false] at hmem
  rcases hmem with h1 | h1 | h1 | h1 <;>
    · rw [suffLower_eq_of_lower _ _ h1]; decide

theorem lexLe_total : ∀ (a b : List Char), lexLe a b = true ∨ lexLe b a = true
  | [], _ => Or.inl rfl
  | _ :: _, [] => Or.inr rfl
  | a :: as, b :: bs => by
    rcases Nat.lt_trichotomy a.toNat b.toNat with h | h | h
    · left; simp [lexLe, h]
    · rcases lexLe_total as bs with ih | ih
      · left; simp [lexLe, h, ih]
      · right; simp [lexLe, h.symm, ih]
    · right; simp [lexLe, h]

theorem lexLe_trans : ∀ (a b c : List Char),
    lexLe a b = true → lexLe b c = true → lexLe a c = true
  | [], _, _, _, _ => rfl
  | _ :: _, [], _, h1, _ => by simp [lexLe] at h1
  | _ :: _, _ :: _, [], _, h2 => by simp [lexLe] at h2
  | a :: as, b :: bs, c :: cs, h1, h2 => by
    simp only [lexLe] at h1 h2 ⊢
    by_cases hab : a.toNat < b.toNat <;> by_cases hbc : b.toNat < c.toNat
    · simp [Nat.lt_trans hab hbc]
    · by_cases hbc2 : b.toNat = c.toNat
      · simp [show a.toNat < c.toNat from hbc2 ▸ hab]
      · simp [hbc, hbc2] at h2
    · by_cases hab2 : a.toNat = b.toNat
      · simp [show a.toNat < c.toNat from hab2 ▸ hbc]
      · simp [hab, hab2] at h1
    · by_cases hab2 : a.toNat = b.toNat
      · by_cases hbc2 : b.toNat = c.toNat
        · have hac : a.toNat = c.toNat := hab2.trans hbc2
          have h1' : lexLe as bs = true := by simpa [hab, hab2] using h1
          have h2' : lexLe bs cs = true := by simpa [hbc, hbc2] using h2
          simp [hac, lexLe_trans as bs cs h1' h2']
        · simp [hbc, hbc2] at h2
      · simp [hab, hab2] at h1

instance : IsTotal String strLe := ⟨fun a b => lexLe_total a.data b.data⟩

instance : IsTrans String strLe := ⟨fun a b c => lexLe_trans a.data b.data c.data⟩

theorem runPipeline_nil (exts : List String) (root : FPath) (ign : List String → Bool)
    (impF : FPath → List String) :
    runPipeline exts root [] ign impF = Except.ok ⟨[], [], 0⟩ := rfl

/-! ### Claim C1 (Scenario B) -/

/-- Claim C1 is false on the code: in Scenario B (`main.py` containing
`from utils import helper`, `utils/helper.py` and `utils/unused.py` empty)
the extracted reference is the dotted module path `utils` — group 2 of
`REGEX_PY_IMPORT` — not `utils.helper`; no indexed file has name or stem
`utils`, so the reference does not resolve, `helper.py` keeps in-degree 0,
and the emitted output is not the claimed one. -/
theorem C1_scenarioB_claim_false :
    runPipeline EXTENSIONS ["proj"] [["main.py"], ["utils", "helper.py"], ["utils", "unused.py"]]
        (fun _ => false)
        (fun f => if f = ["proj", "main.py"]
          then scan_imports_py ["from utils import helper"] else [])
      ≠ Except.ok ⟨["utils/unused.py"], ["main.py"], 1⟩
    ∧ scan_imports_py ["from utils import helper"] = ["utils"]
    ∧ resolve_import EXTENSIONS
        (indexedAbs ["proj"] [["main.py"], ["utils", "helper.py"], ["utils", "unused.py"]]
          (fun _ => false))
        ["proj", "main.py"] "utils" = Except.ok none := by decide

/-- Claim C1 amended: on Scenario B the run completes and outputs
`orphans = ["utils/helper.py", "utils/unused.py"]` and
`likely_entry_points = ["main.py"]` — the reference extracted from `main.py`
is `utils`, which resolves to nothing, so `utils/helper.py` has in-degree 0
and is reported as an orphan alongside `utils/unused.py`. -/
theorem C1_scenarioB_actual :
    runPipeline EXTENSIONS ["proj"] [["main.py"], ["utils", "helper.py"], ["utils", "unused.py"]]
        (fun _ => false)
        (fun f => if f = ["proj", "main.py"]
          then scan_imports_py ["from utils import helper"] else [])
      = Except.ok ⟨["utils/helper.py", "utils/unused.py"], ["main.py"], 2⟩ := by decide

/-! ### Claim C2 (reference-count vs set semantics) -/

/-- Claim C2 is false on the code: `scan_imports` collects raw reference
strings into a Python `set`, so the two textual occurrences of
`import utils.helper` in one consumer are deduplicated and the dependency's
in-degree is 1, not 2 (the whole table is shown). -/
theorem C2_duplicate_refs_claim_false :
    (["import utils.helper", "import utils.helper"] : List String).length = 2
    ∧ scan_imports_py ["import utils.helper", "import utils.helper"] = ["utils.helper"]
    ∧ degreeDict EXTENSIONS ["p"] [["main.py"], ["utils", "helper.py"]] (fun _ => false)
        (fun f => if f = ["p", "main.py"]
          then scan_imports_py ["import utils.helper", "import utils.helper"] else [])
      = Except.ok [(["p", "main.py"], 0), (["p", "utils", "helper.py"], 1)] := by decide

/-- Claim C2 amended: in every completed run, a file's in-degree is the sum,
over all consumers, of the number of extracted raw reference strings of that
consumer that resolve to the file (self-references excluded) — one increment
per string in the consumer's extracted list; and for the Python dialect that
list is a set of the matched strings (duplicate-free, with exactly the
per-line matches as members), so identical textual occurrences contribute a
single increment while distinct strings resolving to the same dependency
each contribute one. -/
theorem C2_distinct_refs_semantics (exts : List String) (root : FPath)
    (walked : List (List String)) (ign : List String → Bool)
    (impF : FPath → List String) (d : Dict)
    (hd : degreeDict exts root walked ign impF = Except.ok d)
    (t : FPath) (ht : t ∈ indexedAbs root walked ign) :
    dictGet d t = ((indexedAbs root walked ign).map (fun c =>
      if t = c then 0
      else (impF c).countP (fun imp =>
        decide (resolve_import exts (indexedAbs root walked ign) c imp
          = Except.ok (some t))))).sum
    ∧ ∀ lines : List String, (scan_imports_py lines).Nodup
        ∧ ∀ s : String, s ∈ scan_imports_py lines ↔ s ∈ lines.filterMap pyLineImport := by
  constructor
  · unfold degreeDict accumulate at hd
    have hk := hasKey_init (indexedAbs root walked ign) t ht
    have hv := foldE_files_val exts (indexedAbs root walked ign) impF t
      (indexedAbs root walked ign) _ d hk hd
    rw [hv, dictGet_init]
    exact Nat.zero_add _
  · intro lines
    exact ⟨nodup_dedupF _, fun s => mem_dedupF _ _⟩

/-- Witness for `C2_distinct_refs_semantics` at the duplicated-import run:
the extracted set for the doubled `import utils.helper` is duplicate-free
with the per-line matches as members. -/
theorem C2_distinct_refs_semantics_witness :
    (scan_imports_py ["import utils.helper", "import utils.helper"]).Nodup
    ∧ ∀ s : String, s ∈ scan_imports_py ["import utils.helper", "import utils.helper"]
        ↔ s ∈ (["import utils.helper", "import utils.helper"] : List String).filterMap
            pyLineImport :=
  (C2_distinct_refs_semantics EXTENSIONS ["p"] [["main.py"], ["utils", "helper.py"]]
    (fun _ => false)
    (fun f => if f = ["p", "main.py"]
      then scan_imports_py ["import utils.helper", "import utils.helper"] else [])
    [(["p", "main.py"], 0), (["p", "utils", "helper.py"], 1)]
    (by decide) ["p", "utils", "helper.py"] (by decide)).2
    ["import utils.helper", "import utils.helper"]

/-! ### Claim C3 (module-path resolution) -/

/-- Claim C3 is false on the code: `resolve_import` accepts a module-path
candidate only via `str(c).endswith(py_path + '.py')` — the literal `.py`
extension, not "any extension in the configured set".  Here `lib/foo`
has the stem-keyed candidate `/proj/lib/foo.js`, whose path ends with the
converted module path followed by the recognised extension `.js`, yet
resolution returns no file. -/
theorem C3_any_extension_claim_false :
    resolve_import EXTENSIONS [["proj", "app.js"], ["proj", "lib", "foo.js"]]
        ["proj", "app.js"] "lib/foo" = Except.ok none
    ∧ (["proj", "lib", "foo.js"] : FPath) ∈
        fileMapGet [["proj", "app.js"], ["proj", "lib", "foo.js"]]
          (lastNonEmpty (splitOnSlash (modPathChars "lib/foo")))
    ∧ (modPathChars "lib/foo" ++ ".js".data).isSuffixOf
        (pathChars ["proj", "lib", "foo.js"]) = true
    ∧ ".js" ∈ EXTENSIONS := by decide

/-- Claim C3 amended: for every non-relative (module-path) reference,
resolution converts dot-separators to path separators, looks the resulting
stem up among the index's stem-keyed candidates, and accepts a candidate if
and only if the candidate's path ends with the converted module path
followed by the literal `.py` extension (only the Python extension, not
every configured extension); if no candidate qualifies the reference
contributes no edge, and this branch never raises. -/
theorem C3_module_resolution_py_only (exts : List String) (files : List FPath)
    (base : FPath) (imp : String) (h : startsWithDot imp = false) :
    (∀ c, resolve_import exts files base imp = Except.ok (some c) →
        c ∈ fileMapGet files (lastNonEmpty (splitOnSlash (modPathChars imp)))
          ∧ endsPy imp c = true)
    ∧ (resolve_import exts files base imp = Except.ok none ↔
        ∀ c ∈ fileMapGet files (lastNonEmpty (splitOnSlash (modPathChars imp))),
          endsPy imp c = false)
    ∧ ∀ e, resolve_import exts files base imp ≠ Except.error e := by
  unfold resolve_import
  rw [h]
  simp only [Bool.false_eq_true, if_false]
  refine ⟨?_, ?_, ?_⟩
  · intro c hc
    have hf : (fileMapGet files (lastNonEmpty (splitOnSlash (modPathChars imp)))).find?
        (fun c => endsPy imp c) = some c := Except.ok.inj hc
    exact ⟨List.mem_of_find?_eq_some hf, List.find?_some hf⟩
  · constructor
    · intro hn c hcm
      have hf : (fileMapGet files (lastNonEmpty (splitOnSlash (modPathChars imp)))).find?
          (fun c => endsPy imp c) = none := Except.ok.inj hn
      have hx := List.find?_eq_none.mp hf c hcm
      simpa using hx
    · intro hall
      have hf : (fileMapGet files (lastNonEmpty (splitOnSlash (modPathChars imp)))).find?
          (fun c => endsPy imp c) = none := by
        apply List.find?_eq_none.mpr
        intro c hc
        simp [hall c hc]
      rw [hf]
  · intro e he
    exact Except.noConfusion he

/-- Witness for `C3_module_resolution_py_only`: `utils.helper` resolving to
`/p/utils/helper.py` is indeed a stem candidate whose path ends with
`utils/helper.py`. -/
theorem C3_module_resolution_py_only_witness :
    (["p", "utils", "helper.py"] : FPath) ∈
      fileMapGet [["p", "utils", "helper.py"]]
        (lastNonEmpty (splitOnSlash (modPathChars "utils.helper")))
    ∧ endsPy "utils.helper" ["p", "utils", "helper.py"] = true :=
  (C3_module_resolution_py_only EXTENSIONS [["p", "utils", "helper.py"]] ["p", "main.py"]
    "utils.helper" (by decide)).1 ["p", "utils", "helper.py"] (by decide)

/-! ### Claim C4 (relative resolution) -/

/-- Claim C4 is false on the code in two ways.  First, resolution step (2)
uses CPython `with_suffix`, which replaces an existing final suffix instead
of appending the extension: for `./a.b` resolved from `/proj/main.js` the
claim's "target path plus `.js` appended" is `/proj/a.b.js`, which is in the
index, yet `resolve_import` probes `/proj/a.js` and finds nothing.  Second,
"if none match the reference is unresolved" fails when the relative target
is the filesystem root: `../..` from `/w/x/y.js` aborts the run with an
uncaught `ValueError` instead of being unresolved. -/
theorem C4_append_claim_false :
    resolve_import EXTENSIONS [["proj", "main.js"], ["proj", "a.b.js"]]
        ["proj", "main.js"] "./a.b" = Except.ok none
    ∧ specAppendExt (resolveRel ["proj", "main.js"] "./a.b") ".js" = ["proj", "a.b.js"]
    ∧ (["proj", "a.b.js"] : FPath) ∈ [["proj", "main.js"], ["proj", "a.b.js"]]
    ∧ ".js" ∈ EXTENSIONS
    ∧ withSuffix (resolveRel ["proj", "main.js"] "./a.b") ".js" = ["proj", "a.js"]
    ∧ resolve_import EXTENSIONS [["w", "x", "y.js"]] ["w", "x", "y.js"] "../.."
        = Except.error "ValueError" := by decide

/-- Claim C4 amended: for every relative reference (beginning with `.`),
after computing the absolute target relative to the originating file's
directory, the resolver checks: (1) the exact target path in the index; then,
if the target has an empty name (it is the filesystem root), the run aborts
with an uncaught `ValueError` from `with_suffix`; otherwise (2) the target
path with each recognised extension substituted by `with_suffix` — which
replaces an existing final suffix and coincides with appending exactly when
the target's final component has no suffix; (3) the target as a directory
containing an `index.<ext>` file; the first match is returned and if none
match the reference is unresolved. -/
theorem C4_relative_resolution_staged (exts : List String) (files : List FPath)
    (base : FPath) (imp : String) (h : startsWithDot imp = true) :
    (resolveRel base imp ∈ files →
      resolve_import exts files base imp = Except.ok (some (resolveRel base imp)))
    ∧ ((resolveRel base imp ∉ files ∧ nameOf (resolveRel base imp) = "" ∧ exts ≠ []) →
        resolve_import exts files base imp = Except.error "ValueError")
    ∧ ((resolveRel base imp ∉ files ∧ nameOf (resolveRel base imp) ≠ "") →
        ∀ r, resolve_import exts files base imp = Except.ok (some r) →
          ((∃ e ∈ exts, r = withSuffix (resolveRel base imp) e ∧ r ∈ files)
            ∨ ((∀ e ∈ exts, withSuffix (resolveRel base imp) e ∉ files)
              ∧ ∃ e ∈ exts, r = resolveRel base imp ++ [idxName e] ∧ r ∈ files)))
    ∧ ((resolveRel base imp ∉ files ∧ nameOf (resolveRel base imp) ≠ ""
        ∧ (∀ e ∈ exts, withSuffix (resolveRel base imp) e ∉ files)
        ∧ (∀ e ∈ exts, resolveRel base imp ++ [idxName e] ∉ files)) →
        resolve_import exts files base imp = Except.ok none)
    ∧ (nmSuffix (nameOf (resolveRel base imp)).data = [] →
        ∀ e, withSuffix (resolveRel base imp) e = specAppendExt (resolveRel base imp) e) := by
  unfold resolve_import
  rw [h]
  simp only [if_true]
  refine ⟨?_, ?_, ?_, ?_, ?_⟩
  · intro ht
    rw [if_pos (by simpa using ht)]
  · rintro ⟨ht, hname, hexts⟩
    rw [if_neg (by simpa using ht), if_pos hname, if_neg hexts]
  · rintro ⟨ht, hname⟩ r hr
    rw [if_neg (by simpa using ht), if_neg hname] at hr
    cases h1 : exts.find? (fun e => decide (withSuffix (resolveRel base imp) e ∈ files)) with
    | some e =>
      rw [h1] at hr
      left
      refine ⟨e, List.mem_of_find?_eq_some h1, ?_, ?_⟩
      · exact (Option.some.inj (Except.ok.inj hr)).symm
      · have hp := List.find?_some h1
        rw [← Option.some.inj (Except.ok.inj hr)]
        simpa using hp
    | none =>
      rw [h1] at hr
      cases h2 : exts.find?
          (fun e => decide (resolveRel base imp ++ [idxName e] ∈ files)) with
      | some e =>
        rw [h2] at hr
        right
        refine ⟨?_, e, List.mem_of_find?_eq_some h2, ?_, ?_⟩
        · intro e2 he2
          have hx := List.find?_eq_none.mp h1 e2 he2
          simpa using hx
        · exact (Option.some.inj (Except.ok.inj hr)).symm
        · have hp := List.find?_some h2
          rw [← Option.some.inj (Except.ok.inj hr)]
          simpa using hp
      | none =>
        rw [h2] at hr
        exact Option.noConfusion (Except.ok.inj hr)
  · rintro ⟨ht, hname, hext, hidx⟩
    rw [if_neg (by simpa using ht), if_neg hname,
      List.find?_eq_none.mpr (fun e he => by simp [hext e he]),
      List.find?_eq_none.mpr (fun e he => by simp [hidx e he])]
  · intro hsuf e
    simp only [withSuffix, specAppendExt, nmStem, hsuf, List.length_nil, Nat.sub_zero,
      List.take_length]

/-- Witness for `C4_relative_resolution_staged`: a stage-(1) exact match,
`./a.py` from `/p/main.py` resolving to the indexed `/p/a.py`. -/
theorem C4_relative_resolution_staged_witness :
    resolve_import EXTENSIONS [["p", "a.py"], ["p", "main.py"]] ["p", "main.py"] "./a.py"
      = Except.ok (some (resolveRel ["p", "main.py"] "./a.py")) :=
  (C4_relative_resolution_staged EXTENSIONS [["p", "a.py"], ["p", "main.py"]] ["p", "main.py"]
    "./a.py" (by decide)).1 (by decide)

/-! ### Claim C5 (root-directory precondition) -/

/-- Claim C5 is false on the code in both directions.  `main` never validates
the root (source lines 161-197): on a missing root, `os.walk` yields nothing
and the run completes normally with the empty output structure and exit
status 0, instead of failing fatally with no output.  And on a well-formed
readable root the analysis can still fail: a relative reference resolving to
the filesystem root (`../..` from `/app/a/b.js`) raises an uncaught
`ValueError` and aborts the run. -/
theorem C5_fatal_claim_false :
    mainRun EXTENSIONS [["home", "x", "a.py"], ["etc", "conf.py"]] ["proj"] (fun _ => [])
      = Except.ok ⟨[], [], 0⟩
    ∧ mainRun EXTENSIONS [["app", "a", "b.js"]] ["app"] (fun _ => ["../.."])
      = Except.error "ValueError" := by decide

/-- Claim C5 amended: a missing or non-directory root is not detected — the
walk yields no files and the run completes normally with empty `orphans`
and `likely_entry_points`, count 0, and normal exit status.  The converse
clause of the claim is also wrong: even on a well-formed readable root the
analysis can abort, namely with the uncaught `ValueError` raised by
`with_suffix` when a relative reference resolves to the filesystem root
(witnessed by the concrete aborting run in the second conjunct). -/
theorem C5_missing_root_empty_output (exts : List String) (fs : List FPath)
    (root : FPath) (impF : FPath → List String) (h : walkFS fs root = []) :
    mainRun exts fs root impF = Except.ok ⟨[], [], 0⟩
    ∧ mainRun EXTENSIONS [["srv", "u", "v.js"]] ["srv"] (fun _ => ["../.."])
        = Except.error "ValueError" := by
  constructor
  · unfold mainRun
    rw [h, runPipeline_nil]
  · decide

/-- Witness for `C5_missing_root_empty_output` at a snapshot that does not
contain the root `/etc`. -/
theorem C5_missing_root_empty_output_witness :
    mainRun EXTENSIONS [["home", "x", "a.py"]] ["etc"] (fun _ => []) = Except.ok ⟨[], [], 0⟩
    ∧ mainRun EXTENSIONS [["srv", "u", "v.js"]] ["srv"] (fun _ => ["../.."])
        = Except.error "ValueError" :=
  C5_missing_root_empty_output EXTENSIONS [["home", "x", "a.py"]] ["etc"] (fun _ => [])
    (by decide)

/-! ### Claim C6 (sorted output) -/

/-- Claim C6 is false on the code in both of its parts.  Sortedness: the
JSON lists are emitted in in-degree-table insertion order — with walk order
`z.py`, `sub/a.py` the JSON `orphans` array is `["z.py", "sub/a.py"]`, whose
adjacent elements are out of lexicographic order.  Determinism: `EXTENSIONS`
is a hash-randomized set, so two processes with identical walk order can
iterate it differently; below, the same project (`main.js` importing `./a`,
with both `a.js` and `a.py` indexed) yields orphans `["a.py"]` under one
iteration order and `["a.js"]` under another (a permutation of the same
set). -/
theorem C6_json_sorted_claim_false :
    runPipeline EXTENSIONS ["proj"] [["z.py"], ["sub", "a.py"]] (fun _ => false)
        (fun _ => []) = Except.ok ⟨["z.py", "sub/a.py"], [], 2⟩
    ∧ lexLe "z.py".data "sub/a.py".data = false
    ∧ ([".py", ".js", ".jsx", ".ts", ".tsx", ".mjs", ".cjs", ".go"] : List String).Perm
        EXTENSIONS
    ∧ runPipeline EXTENSIONS ["proj"] [["main.js"], ["a.js"], ["a.py"]] (fun _ => false)
        (fun f => if f = ["proj", "main.js"] then ["./a"] else [])
      = Except.ok ⟨["a.py"], ["main.js"], 1⟩
    ∧ runPipeline [".py", ".js", ".jsx", ".ts", ".tsx", ".mjs", ".cjs", ".go"]
        ["proj"] [["main.js"], ["a.js"], ["a.py"]] (fun _ => false)
        (fun f => if f = ["proj", "main.js"] then ["./a"] else [])
      = Except.ok ⟨["a.js"], ["main.js"], 1⟩
    ∧ (["a.py"] : List String) ≠ ["a.js"] := by decide

/-- Claim C6 amended: for a fixed extension-set iteration order the output
is a function of the walk order, but across processes that order is
hash-randomized and can change which file a relative import resolves to,
so the output is not determined by the walk order alone; and only the text
format sorts the two lists — the JSON arrays keep in-degree-table insertion
order, while the text-format lists are lexicographically sorted permutations
of the corresponding JSON arrays. -/
theorem C6_text_sorted_json_walk_order (exts : List String) (root : FPath)
    (walked : List (List String)) (ign : List String → Bool)
    (impF : FPath → List String) (out : Output)
    (_hd : runPipeline exts root walked ign impF = Except.ok out) :
    List.Sorted strLe (textSorted out.orphans)
    ∧ (textSorted out.orphans).Perm out.orphans
    ∧ List.Sorted strLe (textSorted out.likely_entry_points)
    ∧ (textSorted out.likely_entry_points).Perm out.likely_entry_points :=
  ⟨List.sorted_insertionSort strLe _, List.perm_insertionSort strLe _,
   List.sorted_insertionSort strLe _, List.perm_insertionSort strLe _⟩

/-- Witness for `C6_text_sorted_json_walk_order` at the unsorted-JSON run. -/
theorem C6_text_sorted_json_walk_order_witness :
    List.Sorted strLe (textSorted (Output.mk ["z.py", "sub/a.py"] [] 2).orphans)
    ∧ (textSorted (Output.mk ["z.py", "sub/a.py"] [] 2).orphans).Perm
        (Output.mk ["z.py", "sub/a.py"] [] 2).orphans
    ∧ List.Sorted strLe (textSorted (Output.mk ["z.py", "sub/a.py"] [] 2).likely_entry_points)
    ∧ (textSorted (Output.mk ["z.py", "sub/a.py"] [] 2).likely_entry_points).Perm
        (Output.mk ["z.py", "sub/a.py"] [] 2).likely_entry_points :=
  C6_text_sorted_json_walk_order EXTENSIONS ["proj"] [["z.py"], ["sub", "a.py"]]
    (fun _ => false) (fun _ => []) (Output.mk ["z.py", "sub/a.py"] [] 2) (by decide)

/-! ### Claim C7 (zero-in-degree partition) -/

/-- Claim C7 confirmed for every completed run: a file is in one of the two
output lists iff it is indexed with in-degree 0; it is in
`likely_entry_points` iff additionally its filename matches an entry-point
pattern, in `orphans` iff it does not; the lists are disjoint, and files
with positive in-degree appear in neither — so the union of the two lists is
exactly the zero-in-degree subset of the indexed files. -/
theorem C7_zero_degree_partition (exts : List String) (root : FPath)
    (walked : List (List String)) (ign : List String → Bool)
    (impF : FPath → List String) (d : Dict)
    (hd : degreeDict exts root walked ign impF = Except.ok d) (f : FPath) :
    ((f ∈ trueOrphansOf root walked ign d ∨ f ∈ likelyOf root walked ign d) ↔
      (f ∈ indexedAbs root walked ign ∧ dictGet d f = 0))
    ∧ ¬ (f ∈ trueOrphansOf root walked ign d ∧ f ∈ likelyOf root walked ign d)
    ∧ (f ∈ likelyOf root walked ign d ↔
        (f ∈ indexedAbs root walked ign ∧ dictGet d f = 0
          ∧ isEntryPointName (nameOf f) = true))
    ∧ (f ∈ trueOrphansOf root walked ign d ↔
        (f ∈ indexedAbs root walked ign ∧ dictGet d f = 0
          ∧ isEntryPointName (nameOf f) = false)) := by
  have hkeys := degreeDict_keys exts root walked ign impF d hd
  have hlike : f ∈ likelyOf root walked ign d ↔
      (f ∈ indexedAbs root walked ign ∧ dictGet d f = 0
        ∧ isEntryPointName (nameOf f) = true) := by
    rw [mem_likelyOf, mem_orphansOf _ _ hkeys, mem_get_entry_points]
    constructor
    · rintro ⟨⟨hA, hD⟩, ⟨_, hT⟩⟩; exact ⟨hA, hD, hT⟩
    · rintro ⟨hA, hD, hT⟩; exact ⟨⟨hA, hD⟩, ⟨hA, hT⟩⟩
  have htrue : f ∈ trueOrphansOf root walked ign d ↔
      (f ∈ indexedAbs root walked ign ∧ dictGet d f = 0
        ∧ isEntryPointName (nameOf f) = false) := by
    rw [mem_trueOrphansOf, mem_orphansOf _ _ hkeys, mem_get_entry_points]
    constructor
    · rintro ⟨⟨hA, hD⟩, hn⟩
      refine ⟨hA, hD, ?_⟩
      cases hb : isEntryPointName (nameOf f) with
      | false => rfl
      | true => exact absurd ⟨hA, hb⟩ hn
    · rintro ⟨hA, hD, hF⟩
      refine ⟨⟨hA, hD⟩, ?_⟩
      rintro ⟨_, hT⟩
      rw [hF] at hT
      exact Bool.noConfusion hT
  refine ⟨?_, ?_, hlike, htrue⟩
  · rw [hlike, htrue]
    constructor
    · rintro (⟨hA, hD, _⟩ | ⟨hA, hD, _⟩) <;> exact ⟨hA, hD⟩
    · rintro ⟨hA, hD⟩
      cases hb : isEntryPointName (nameOf f) with
      | false => exact Or.inl ⟨hA, hD, rfl⟩
      | true => exact Or.inr ⟨hA, hD, rfl⟩
  · rw [hlike, htrue]
    rintro ⟨⟨_, _, hF⟩, ⟨_, _, hT⟩⟩
    rw [hF] at hT
    exact Bool.noConfusion hT

/-- Witness for `C7_zero_degree_partition`: in a completed run with the
single indexed file `/r/z.py` and no references, `z.py` is a true orphan. -/
theorem C7_zero_degree_partition_witness :
    (["r", "z.py"] : FPath) ∈ trueOrphansOf ["r"] [["z.py"]] (fun _ => false)
      [(["r", "z.py"], 0)] :=
  (C7_zero_degree_partition EXTENSIONS ["r"] [["z.py"]] (fun _ => false) (fun _ => [])
    [(["r", "z.py"], 0)] (by decide) ["r", "z.py"]).2.2.2.mpr
    ⟨by decide, by decide, by decide⟩

/-! ### Claim C8 (self-edges discarded) -/

/-- Claim C8 confirmed: a reference that resolves to its own consumer is
discarded by the `resolved != consumer` guard (source line 228), so adding
such a reference to a consumer's extracted set leaves the whole run result —
the in-degree table entry of that file and of every other, and the
completion/abort behaviour — unchanged. -/
theorem C8_self_import_no_effect (exts : List String) (root : FPath)
    (walked : List (List String)) (ign : List String → Bool)
    (impF : FPath → List String) (c : FPath) (ref : String)
    (h : resolve_import exts (indexedAbs root walked ign) c ref = Except.ok (some c)) :
    degreeDict exts root walked ign (fun x => if x = c then ref :: impF x else impF x)
      = degreeDict exts root walked ign impF := by
  unfold degreeDict accumulate
  apply foldE_congr
  intro d x _
  simp only []
  by_cases hx : x = c
  · have hres : resolve_import exts (indexedAbs root walked ign) x ref
        = Except.ok (some x) := by rw [hx]; exact h
    rw [if_pos hx]
    simp only [foldE]
    rw [addImport_self exts (indexedAbs root walked ign) x d ref hres]
  · rw [if_neg hx]

/-- Witness for `C8_self_import_no_effect`: `utils/helper.py` importing
`utils.helper` resolves to itself and changes no in-degree. -/
theorem C8_self_import_no_effect_witness :
    degreeDict EXTENSIONS ["p"] [["utils", "helper.py"]] (fun _ => false)
        (fun x => if x = ["p", "utils", "helper.py"] then "utils.helper" :: [] else [])
      = degreeDict EXTENSIONS ["p"] [["utils", "helper.py"]] (fun _ => false) (fun _ => []) :=
  C8_self_import_no_effect EXTENSIONS ["p"] [["utils", "helper.py"]] (fun _ => false)
    (fun _ => []) ["p", "utils", "helper.py"] "utils.helper" (by decide)

/-! ### Claim C9 (output elements have recognised extensions) -/

/-- Claim C9 confirmed for every completed run and for both output lists:
every element of `likely_entry_points` and of `orphans` is an indexed file,
its lowered extension is in the recognised set, and consequently none of the
four package-manifest whitelist patterns (`tsconfig.json`, `package.json`,
`go.mod`, `requirements.txt`) can match any output element: a name matching
one of those patterns has lowered suffix `.json`, `.mod` or `.txt`, none of
which is in `EXTENSIONS`, so such a file is never admitted to the index. -/
theorem C9_entry_points_recognized_ext (exts : List String) (root : FPath)
    (walked : List (List String)) (ign : List String → Bool)
    (impF : FPath → List String) (d : Dict)
    (hd : degreeDict exts root walked ign impF = Except.ok d) (f : FPath)
    (h : f ∈ likelyOf root walked ign d ∨ f ∈ trueOrphansOf root walked ign d) :
    f ∈ indexedAbs root walked ign
    ∧ suffLower (nameOf f) ∈ EXTENSIONS
    ∧ manifestMatch (nameOf f) = false := by
  have hkeys := degreeDict_keys exts root walked ign impF d hd
  have hforph : f ∈ orphansOf d := by
    rcases h with h | h
    · exact ((mem_likelyOf root walked ign d f).mp h).1
    · exact ((mem_trueOrphansOf root walked ign d f).mp h).1
  have hidx : f ∈ indexedAbs root walked ign :=
    ((mem_orphansOf (indexedAbs root walked ign) d hkeys f).mp hforph).1
  have hext : extOK f = true := extOK_of_mem_indexedAbs root walked ign f hidx
  have hsuff : suffLower (nameOf f) ∈ EXTENSIONS := of_decide_eq_true hext
  refine ⟨hidx, hsuff, ?_⟩
  cases hmm : manifestMatch (nameOf f) with
  | false => rfl
  | true => exact absurd hsuff (suffLower_manifest (nameOf f) hmm)

/-- Witness for `C9_entry_points_recognized_ext` at a completed run whose
only file, `main.py`, is a likely entry point. -/
theorem C9_entry_points_recognized_ext_witness :
    (["p", "main.py"] : FPath) ∈ indexedAbs ["p"] [["main.py"]] (fun _ => false)
    ∧ suffLower (nameOf (["p", "main.py"] : FPath)) ∈ EXTENSIONS
    ∧ manifestMatch (nameOf (["p", "main.py"] : FPath)) = false :=
  C9_entry_points_recognized_ext EXTENSIONS ["p"] [["main.py"]] (fun _ => false)
    (fun _ => []) [(["p", "main.py"], 0)] (by decide) ["p", "main.py"]
    (Or.inl (by decide))

/-! ### Claim C10 (key-set invariance) -/

/-- Claim C10 confirmed for every completed run: the key list of the
in-degree table is exactly the deduplicated indexed file list (an increment
is guarded by key membership, so aggregation never adds a key), and both
output lists are subsets of the indexed files. -/
theorem C10_keys_invariant (exts : List String) (root : FPath)
    (walked : List (List String)) (ign : List String → Bool)
    (impF : FPath → List String) (d : Dict)
    (hd : degreeDict exts root walked ign impF = Except.ok d) :
    d.map (fun p => p.1) = dedupF (indexedAbs root walked ign)
    ∧ (∀ f ∈ trueOrphansOf root walked ign d, f ∈ indexedAbs root walked ign)
    ∧ (∀ f ∈ likelyOf root walked ign d, f ∈ indexedAbs root walked ign) := by
  have hkeys := degreeDict_keys exts root walked ign impF d hd
  refine ⟨hkeys, ?_, ?_⟩
  · intro f hf
    exact ((mem_orphansOf _ d hkeys f).mp
      ((mem_trueOrphansOf root walked ign d f).mp hf).1).1
  · intro f hf
    exact ((mem_orphansOf _ d hkeys f).mp
      ((mem_likelyOf root walked ign d f).mp hf).1).1

/-- Witness for `C10_keys_invariant` at a one-file completed run, placing
the orphan `b.py` inside the indexed set. -/
theorem C10_keys_invariant_witness :
    ([(["q", "b.py"], 0)] : Dict).map (fun p => p.1)
        = dedupF (indexedAbs ["q"] [["b.py"]] (fun _ => false))
    ∧ (["q", "b.py"] : FPath) ∈ indexedAbs ["q"] [["b.py"]] (fun _ => false) :=
  ⟨(C10_keys_invariant EXTENSIONS ["q"] [["b.py"]] (fun _ => false) (fun _ => [])
      [(["q", "b.py"], 0)] (by decide)).1,
   (C10_keys_invariant EXTENSIONS ["q"] [["b.py"]] (fun _ => false) (fun _ => [])
      [(["q", "b.py"], 0)] (by decide)).2.1 ["q", "b.py"] (by decide)⟩

end FindOrphans
